import Mathlib

/-!
# Verification of a REINFORCE policy-gradient training loop

This development embeds the algorithmic core of
`src/day05/policy_gradients/policy_gradients_pytorch.ipynb`:

* `computeReturns` — the reverse-order discounted-return accumulation at the
  top of `finish_episode` (`R = r + gamma * R`, prepending `R`);
* `mean`, `sampleVar`, `std`, `normalize` — the normalization line
  `rewards = (rewards - rewards.mean()) / (rewards.std() + eps)` over exact
  reals (`torch.Tensor.std` is the unbiased sample standard deviation,
  dividing by `n - 1`; `eps = np.finfo(np.float32).eps = 2⁻²³`);
* `meanF`, `sampleVarF`, `stdF`, `normalizeF` — the same pipeline with
  float-aware division `fdiv`, where `none` models an IEEE non-finite result
  (NaN/Inf) produced by dividing by zero, propagated through the pipeline;
* `sampleAction` — the categorical draw of `select_action`
  (`probs.multinomial()`), whose validity checking lives inside the torch
  library and is therefore modelled from the spec;
* `Mode`, `Config`, `CtrlState`, `ctrlStep`, `initState` — the training
  controller of `main` as a step machine: reset, the inner
  `for t in range(10000)` loop with its `done`/step-cap exit, the
  episode-boundary block (running-reward update, `finish_episode` parameter
  update and buffer clearing, stopping check against `reward_threshold`);
* `CtrlRel` — the same transitions as a relation, used to state that the
  loop is deterministic.

The environment and the policy network are external collaborators; their
combined per-timestep effect is abstracted as `Config.interact`
(action record, reward, done flag as a function of current parameters,
episode index and timestep), and the gradient step of `finish_episode` as
`Config.update` applied to the whole episode's buffers.
-/

namespace PolicyGradient

/-! ## Return Calculator (`finish_episode`, discounting part)

Source:
```
R = 0
rewards = []
for r in policy.rewards[::-1]:
    R = r + gamma * R
    rewards.insert(0, R)
```
Iterating over the reversed list while prepending means the accumulator `R`
always equals the head of the list built so far (`0` when it is empty), so
the loop is the recursion below. -/
def computeReturns {α : Type} [Zero α] [Add α] [Mul α] (g : α) : List α → List α
  | [] => []
  | r :: rest =>
    let t := computeReturns g rest
    (r + g * t.headD 0) :: t

/-! ## Return normalization (`finish_episode`, normalization line)

Source: `rewards = (rewards - rewards.mean()) / (rewards.std() + np.finfo(np.float32).eps)`.
`torch.Tensor.std` is the unbiased sample standard deviation (denominator
`n - 1`), and `np.finfo(np.float32).eps = 2⁻²³`.  The exact-real versions
below use Lean's total division; the `…F` versions model a float division by
zero as `none` (an IEEE non-finite value, NaN or ±Inf, which then propagates
through every later operation), matching what the tensor arithmetic does. -/

noncomputable def eps : ℝ := 1 / 2 ^ 23

noncomputable def mean (l : List ℝ) : ℝ := l.sum / l.length

noncomputable def sampleVar (l : List ℝ) : ℝ :=
  (l.map fun x => (x - mean l) ^ 2).sum / ((l.length : ℝ) - 1)

noncomputable def std (l : List ℝ) : ℝ := Real.sqrt (sampleVar l)

noncomputable def normalize (l : List ℝ) : List ℝ :=
  l.map fun x => (x - mean l) / (std l + eps)

/-- Float-aware division: a zero denominator yields an IEEE non-finite value
(NaN for `0/0`, ±Inf otherwise), modelled as `none`. -/
noncomputable def fdiv (x y : ℝ) : Option ℝ := if y = 0 then none else some (x / y)

noncomputable def meanF (l : List ℝ) : Option ℝ := fdiv l.sum l.length

noncomputable def sampleVarF (l : List ℝ) : Option ℝ :=
  (meanF l).bind fun m => fdiv ((l.map fun x => (x - m) ^ 2).sum) ((l.length : ℝ) - 1)

noncomputable def stdF (l : List ℝ) : Option ℝ := (sampleVarF l).map Real.sqrt

noncomputable def normalizeF (l : List ℝ) : Option (List ℝ) :=
  (meanF l).bind fun m => (stdF l).bind fun s =>
    if s + eps = 0 then none else some (l.map fun x => (x - m) / (s + eps))

/-! ## Action Sampler (`select_action`)

Source:
```
def select_action(state, policy):
    state = torch.from_numpy(state).float().unsqueeze(0)
    probs = policy(Variable(state))
    action = probs.multinomial()
    policy.saved_actions.append(action)
    return action.data
```
The categorical draw and its validity checking happen inside
`torch.multinomial`, which is library code not present in this repository,
so the sampler is modelled from the spec (see `sampleAction`). -/

/-- Policy-network output entry as a float-like value: either a finite
rational or one of the IEEE non-finite values. -/
inductive Fl : Type where
  | fin (x : ℚ)
  | nan
  | inf
  | neginf
deriving DecidableEq

def Fl.isFinite : Fl → Bool
  | .fin _ => true
  | _ => false

/-- Numeric value of a float-like entry (the finite part; non-finite entries
never reach the arithmetic because validation rejects them first). -/
def Fl.val : Fl → ℚ
  | .fin x => x
  | _ => 0

/-- Result of one categorical draw: the chosen action index together with the
chosen entry's probability weight — the differentiable context the update
step later consumes (the source keeps the autograd `action` Variable). -/
structure ActionRecord : Type where
  index : ℕ
  prob : ℚ
deriving DecidableEq

inductive DistributionError : Type where
  | invalidDistribution
deriving DecidableEq

def totalWeight (ps : List Fl) : ℚ := (ps.map Fl.val).sum

/-- Inverse-CDF selection: walk the weights, subtracting each from the
target until the target falls inside the current weight's slot. -/
def pickIndex : List ℚ → ℚ → ℕ
  | [], _ => 0
  | p :: rest, t => if t < p then 0 else pickIndex rest (t - p) + 1

/-- Modelled from the spec: `torch.multinomial`, the categorical sampling and
distribution validation inside `probs.multinomial()` of `select_action`, is
library code absent from this repository.  Per the spec, the sampler fails
with a `DistributionError` when the probabilities are non-finite or do not
sum to a positive value; otherwise it draws one action index according to the
categorical distribution, here by inverse CDF at a uniform draw
`u ∈ [0, 1)`, and records the chosen index with its probability weight. -/
def sampleAction (ps : List Fl) (u : ℚ) : Except DistributionError ActionRecord :=
  if ps.all Fl.isFinite = true ∧ 0 < totalWeight ps then
    let i := pickIndex (ps.map Fl.val) (u * totalWeight ps)
    .ok ⟨i, (ps.map Fl.val).getD i 0⟩
  else
    .error .invalidDistribution

/-! ## Training Controller (`main`)

Source (inner and outer loop of `main`):
```
running_reward = 10
for i_episode in count(1):
    state = env.reset()
    for t in range(10000): # Don't infinite loop while learning
        action = select_action(state, policy)
        state, reward, done, _ = env.step(action[0,0])
        policy.rewards.append(reward)
        if done:
            break
    running_reward = running_reward * 0.99 + t * 0.01
    finish_episode(policy, optimizer, args.gamma)
    if i_episode % args.log_interval == 0: ...
    if running_reward > env.spec.reward_threshold:
        ...
        break
```
The environment/policy pair is abstracted as `Config.interact`
(action record, reward, done flag from current parameters, episode index and
timestep — everything the seeded simulation determines), and the whole
gradient step of `finish_episode` as `Config.update`, applied to the full
episode buffers.  `finish_episode` also clears both buffers.  One `ctrlStep`
performs one reset, one timestep, or one complete episode boundary. -/

inductive Mode : Type where
  | AwaitingReset
  | Running (t : ℕ)
  | EpisodeEnd
  | Converged
deriving DecidableEq

structure Config (P α ρ : Type) : Type where
  interact : P → ℕ → ℕ → α × ρ × Bool
  update : P → List α → List ρ → P
  threshold : ℚ

structure CtrlState (P α ρ : Type) : Type where
  mode : Mode
  episode : ℕ
  params : P
  acts : List α
  rews : List ρ
  running_reward : ℚ
  lastT : ℕ
deriving DecidableEq

def ctrlStep {P α ρ : Type} (cfg : Config P α ρ) (s : CtrlState P α ρ) :
    CtrlState P α ρ :=
  match s.mode with
  | .AwaitingReset => { s with mode := .Running 0 }
  | .Running t =>
    let (a, r, done) := cfg.interact s.params s.episode t
    if done = true ∨ t + 1 = 10000 then
      { s with mode := .EpisodeEnd, acts := s.acts ++ [a], rews := s.rews ++ [r],
               lastT := t }
    else
      { s with mode := .Running (t + 1), acts := s.acts ++ [a], rews := s.rews ++ [r] }
  | .EpisodeEnd =>
    let rr := s.running_reward * (99 / 100) + (s.lastT : ℚ) * (1 / 100)
    { mode := if rr > cfg.threshold then .Converged else .AwaitingReset,
      episode := s.episode + 1,
      params := cfg.update s.params s.acts s.rews,
      acts := [], rews := [],
      running_reward := rr,
      lastT := s.lastT }
  | .Converged => s

/-- Initial controller state: `running_reward = 10`, episode counter at 1
(`count(1)`), empty buffers (fresh `Policy`), about to reset. -/
def initState {P α ρ : Type} (p0 : P) : CtrlState P α ρ :=
  { mode := .AwaitingReset, episode := 1, params := p0, acts := [], rews := [],
    running_reward := 10, lastT := 0 }

/-- Training-loop transitions as a relation, used to state that the loop is
deterministic: each constructor matches one branch of `ctrlStep`. -/
inductive CtrlRel {P α ρ : Type} (cfg : Config P α ρ) :
    CtrlState P α ρ → CtrlState P α ρ → Prop where
  | reset (s : CtrlState P α ρ) (h : s.mode = .AwaitingReset) :
      CtrlRel cfg s { s with mode := .Running 0 }
  | timestep (s : CtrlState P α ρ) (t : ℕ) (a : α) (r : ρ) (d : Bool)
      (hm : s.mode = .Running t)
      (hi : cfg.interact s.params s.episode t = (a, r, d))
      (hc : ¬(d = true ∨ t + 1 = 10000)) :
      CtrlRel cfg s { s with mode := .Running (t + 1), acts := s.acts ++ [a],
                             rews := s.rews ++ [r] }
  | timestepEnd (s : CtrlState P α ρ) (t : ℕ) (a : α) (r : ρ) (d : Bool)
      (hm : s.mode = .Running t)
      (hi : cfg.interact s.params s.episode t = (a, r, d))
      (hc : d = true ∨ t + 1 = 10000) :
      CtrlRel cfg s { s with mode := .EpisodeEnd, acts := s.acts ++ [a],
                             rews := s.rews ++ [r], lastT := t }
  | boundary (s : CtrlState P α ρ) (h : s.mode = .EpisodeEnd) :
      CtrlRel cfg s
        { mode := if s.running_reward * (99 / 100) + (s.lastT : ℚ) * (1 / 100) >
              cfg.threshold then .Converged else .AwaitingReset,
          episode := s.episode + 1,
          params := cfg.update s.params s.acts s.rews,
          acts := [], rews := [],
          running_reward := s.running_reward * (99 / 100) + (s.lastT : ℚ) * (1 / 100),
          lastT := s.lastT }
  | halted (s : CtrlState P α ρ) (h : s.mode = .Converged) : CtrlRel cfg s s

/-- Concrete configuration used by the witnesses: a trivial environment that
reports `done` on the very first timestep. -/
def cfg0 : Config Unit Unit Unit :=
  { interact := fun _ _ _ => ((), (), true),
    update := fun p _ _ => p,
    threshold := 1000 }

def init0 : CtrlState Unit Unit Unit := initState ()

lemma computeReturns_length {α : Type} [Zero α] [Add α] [Mul α] (g : α) (l : List α) :
    (computeReturns g l).length = l.length := by
  induction l with
  | nil => rfl
  | cons r rest ih => simp [computeReturns, ih]

lemma getD_zero_eq_headD {α : Type} (l : List α) (d : α) : l.getD 0 d = l.headD d := by
  cases l <;> rfl

lemma computeReturns_headD {α : Type} [CommSemiring α] (g : α) (l : List α) :
    (computeReturns g l).headD 0 =
      ∑ k ∈ Finset.range l.length, l.getD k 0 * g ^ k := by
  induction l with
  | nil => simp [computeReturns]
  | cons r rest ih =>
    simp only [computeReturns, List.headD_cons, List.length_cons]
    rw [ih, Finset.sum_range_succ']
    have h : ∀ k ∈ Finset.range rest.length,
        (r :: rest).getD (k + 1) 0 * g ^ (k + 1) = g * (rest.getD k 0 * g ^ k) := by
      intro k _
      rw [List.getD_cons_succ, pow_succ]
      ring
    rw [Finset.sum_congr rfl h, ← Finset.mul_sum]
    simp only [List.getD_cons_zero, pow_zero, mul_one]
    ring

lemma computeReturns_getD {α : Type} [CommSemiring α] (g : α) :
    ∀ (l : List α) (i : ℕ), i < l.length →
      (computeReturns g l).getD i 0 =
        ∑ k ∈ Finset.range (l.length - i), l.getD (i + k) 0 * g ^ k := by
  intro l
  induction l with
  | nil => intro i hi; simp at hi
  | cons r rest ih =>
    intro i hi
    cases i with
    | zero =>
      rw [getD_zero_eq_headD, computeReturns_headD]
      simp
    | succ j =>
      have hj : j < rest.length := by simpa using hi
      have hstep : (computeReturns g (r :: rest)).getD (j + 1) 0 =
          (computeReturns g rest).getD j 0 := by
        simp [computeReturns]
      rw [hstep, ih j hj]
      have hlen : (r :: rest).length - (j + 1) = rest.length - j := by
        simp [Nat.succ_sub_succ]
      rw [hlen]
      refine Finset.sum_congr rfl fun k _ => ?_
      have hidx : j + 1 + k = (j + k) + 1 := by omega
      rw [hidx, List.getD_cons_succ]

/-- C1: the reverse-order accumulation `R = r + gamma * R` of `finish_episode`
produces a list of the same length as the input, in original timestep order,
whose entry at index `i` is `∑ r_k * g^(k-i)` over `k = i .. T-1` (stated with
the reindexing `k = i + j`); in particular for rewards `[1, 1, 1]` and
`g = 1/2` the returns are `[7/4, 3/2, 1] = [1.75, 1.5, 1.0]`. -/
theorem discounted_returns_c1 (g : ℚ) (l : List ℚ) (hg0 : 0 ≤ g) (hg1 : g ≤ 1) :
    (computeReturns g l).length = l.length ∧
    (∀ i, i < l.length →
      (computeReturns g l).getD i 0 =
        ∑ k ∈ Finset.range (l.length - i), l.getD (i + k) 0 * g ^ k) ∧
    computeReturns ((1 : ℚ)/2) [1, 1, 1] = [7/4, 3/2, 1] :=
  ⟨computeReturns_length g l, fun i hi => computeReturns_getD g l i hi, by
    norm_num [computeReturns]⟩

/-- Witness for C1 at `g = 1/2`, `l = [1, 1, 1]`, index `0`. -/
theorem discounted_returns_c1_witness :
    (computeReturns ((1 : ℚ)/2) [1, 1, 1]).length = ([1, 1, 1] : List ℚ).length ∧
    (computeReturns ((1 : ℚ)/2) [1, 1, 1]).getD 0 0 =
      ∑ k ∈ Finset.range (([1, 1, 1] : List ℚ).length - 0),
        ([1, 1, 1] : List ℚ).getD (0 + k) 0 * ((1 : ℚ)/2) ^ k ∧
    computeReturns ((1 : ℚ)/2) [1, 1, 1] = [7/4, 3/2, 1] := by
  have h := discounted_returns_c1 ((1 : ℚ)/2) [1, 1, 1] (by norm_num) (by norm_num)
  exact ⟨h.1, h.2.1 0 (by norm_num), h.2.2⟩

lemma eps_pos : (0 : ℝ) < eps := by rw [eps]; norm_num

lemma sum_div_list (l : List ℝ) (c : ℝ) : (l.map fun x => x / c).sum = l.sum / c := by
  induction l with
  | nil => simp
  | cons a t ih => simp [ih, add_div]

lemma sum_map_sub (l : List ℝ) (m : ℝ) :
    (l.map fun x => x - m).sum = l.sum - l.length * m := by
  induction l with
  | nil => simp
  | cons a t ih =>
    simp only [List.map_cons, List.sum_cons, ih, List.length_cons]
    push_cast
    ring

lemma sum_centered (l : List ℝ) : (l.map fun x => x - mean l).sum = 0 := by
  cases l with
  | nil => simp
  | cons a t =>
    have hn : ((a :: t).length : ℝ) ≠ 0 := by
      simp [List.length_cons]
      positivity
    rw [sum_map_sub, mean]
    field_simp

lemma sum_normalize (l : List ℝ) : (normalize l).sum = 0 := by
  have h1 : normalize l = (l.map fun x => x - mean l).map fun x => x / (std l + eps) := by
    simp only [normalize, List.map_map]
    rfl
  rw [h1, sum_div_list, sum_centered, zero_div]

lemma mean_normalize (l : List ℝ) : mean (normalize l) = 0 := by
  rw [mean, sum_normalize, zero_div]

lemma sampleVar_normalize (l : List ℝ) :
    sampleVar (normalize l) = sampleVar l / (std l + eps) ^ 2 := by
  have hlen : (normalize l).length = l.length := List.length_map _ _
  have h1 : ((normalize l).map fun x => (x - mean (normalize l)) ^ 2).sum
      = (l.map fun x => (x - mean l) ^ 2).sum / (std l + eps) ^ 2 := by
    rw [mean_normalize]
    have h2 : (normalize l).map (fun x => (x - 0) ^ 2)
        = (l.map fun x => (x - mean l) ^ 2).map fun y => y / (std l + eps) ^ 2 := by
      simp only [normalize, List.map_map]
      refine List.map_congr_left fun x _ => ?_
      simp only [Function.comp_apply]
      rw [sub_zero, div_pow]
    rw [h2, sum_div_list]
  rw [sampleVar, sampleVar, h1, hlen, div_right_comm]

lemma sampleVar_nonneg (l : List ℝ) : 0 ≤ sampleVar l := by
  match l with
  | [] => simp [sampleVar]
  | [a] => simp [sampleVar, mean]
  | a :: b :: t =>
    apply div_nonneg
    · apply List.sum_nonneg
      intro x hx
      obtain ⟨y, _, rfl⟩ := List.mem_map.mp hx
      exact sq_nonneg _
    · have h2 : (2 : ℝ) ≤ ((a :: b :: t).length : ℝ) := by
        simp [List.length_cons]
        push_cast
        linarith [Nat.cast_nonneg (α := ℝ) t.length]
      linarith

lemma std_nonneg (l : List ℝ) : 0 ≤ std l := Real.sqrt_nonneg _

lemma std_add_eps_pos (l : List ℝ) : 0 < std l + eps := by
  linarith [std_nonneg l, eps_pos]

lemma std_normalize (l : List ℝ) : std (normalize l) = std l / (std l + eps) := by
  rw [std, sampleVar_normalize, Real.sqrt_div (sampleVar_nonneg l),
    Real.sqrt_sq (std_add_eps_pos l).le, std]

lemma sampleVar_pos (l : List ℝ) (h2 : 2 ≤ l.length)
    (hab : ∃ a ∈ l, ∃ b ∈ l, a ≠ b) : 0 < sampleVar l := by
  obtain ⟨a, ha, b, hb, hne⟩ := hab
  have hd : (0 : ℝ) < (l.length : ℝ) - 1 := by
    have h : (2 : ℝ) ≤ (l.length : ℝ) := by exact_mod_cast h2
    linarith
  rw [sampleVar]
  apply div_pos _ hd
  obtain ⟨c, hc, hcm⟩ : ∃ c ∈ l, c ≠ mean l := by
    by_cases hA : a = mean l
    · exact ⟨b, hb, fun hbm => hne (by rw [hA, hbm])⟩
    · exact ⟨a, ha, hA⟩
  have hpos : 0 < (c - mean l) ^ 2 := pow_two_pos_of_ne_zero (sub_ne_zero.mpr hcm)
  have hmem : (c - mean l) ^ 2 ∈ l.map fun x => (x - mean l) ^ 2 :=
    List.mem_map_of_mem _ hc
  have hle : (c - mean l) ^ 2 ≤ (l.map fun x => (x - mean l) ^ 2).sum := by
    apply List.single_le_sum _ _ hmem
    intro x hx
    obtain ⟨y, _, rfl⟩ := List.mem_map.mp hx
    exact sq_nonneg _
  linarith

lemma std_pos (l : List ℝ) (h2 : 2 ≤ l.length)
    (hab : ∃ a ∈ l, ∃ b ∈ l, a ≠ b) : 0 < std l :=
  Real.sqrt_pos.mpr (sampleVar_pos l h2 hab)

lemma normalizeF_eq (l : List ℝ) (h2 : 2 ≤ l.length) :
    normalizeF l = some (normalize l) := by
  have hn : ((l.length : ℝ)) ≠ 0 := Nat.cast_ne_zero.mpr (by omega)
  have hd : ((l.length : ℝ) - 1) ≠ 0 := by
    have h : (2 : ℝ) ≤ (l.length : ℝ) := by exact_mod_cast h2
    intro h0
    linarith
  have hmean : meanF l = some (mean l) := by rw [meanF, fdiv, if_neg hn, mean]
  have hvar : sampleVarF l = some (sampleVar l) := by
    rw [sampleVarF, hmean]
    simp only [Option.some_bind]
    rw [fdiv, if_neg hd, sampleVar]
  have hstd : stdF l = some (std l) := by
    rw [stdF, hvar, Option.map_some', std]
  rw [normalizeF, hmean, hstd]
  simp only [Option.some_bind]
  rw [if_neg (std_add_eps_pos l).ne', normalize]

lemma normalizeF_singleton (r : ℝ) : normalizeF [r] = none := by
  have hm : meanF [r] = some r := by
    rw [meanF]
    simp [fdiv]
  have hv : sampleVarF [r] = none := by
    rw [sampleVarF, hm]
    simp [fdiv]
  rw [normalizeF, hm]
  simp [stdF, hv]

/-- C2 counterexample: a non-degenerate returns sequence (length 2,
non-constant) whose normalized standard deviation is below `1/2`, hence not
approximately `1` under any reasonable floating tolerance: when the sample
standard deviation of the returns is tiny compared to `eps = 2⁻²³`, the
denominator `std + eps` is dominated by `eps` and the normalized spread
collapses towards `0`. -/
theorem returns_normalization_c2_counterexample :
    2 ≤ ([(0 : ℝ), 1 / 2 ^ 30] : List ℝ).length ∧
    (∃ a ∈ ([(0 : ℝ), 1 / 2 ^ 30] : List ℝ),
      ∃ b ∈ ([(0 : ℝ), 1 / 2 ^ 30] : List ℝ), a ≠ b) ∧
    std (normalize [(0 : ℝ), 1 / 2 ^ 30]) < 1 / 2 := by
  refine ⟨by norm_num, ⟨0, by simp, 1 / 2 ^ 30, by simp, by norm_num⟩, ?_⟩
  have hm : mean [(0 : ℝ), 1 / 2 ^ 30] = 1 / 2 ^ 31 := by
    rw [mean]
    norm_num
  have hv : sampleVar [(0 : ℝ), 1 / 2 ^ 30] = 1 / 2 ^ 61 := by
    rw [sampleVar, hm]
    norm_num
  have hstd : std [(0 : ℝ), 1 / 2 ^ 30] ≤ 1 / 2 ^ 30 := by
    rw [std, hv]
    calc Real.sqrt (1 / 2 ^ 61) ≤ Real.sqrt ((1 / 2 ^ 30) ^ 2) :=
          Real.sqrt_le_sqrt (by norm_num)
      _ = 1 / 2 ^ 30 := Real.sqrt_sq (by norm_num)
  have hlt : std [(0 : ℝ), 1 / 2 ^ 30] < eps :=
    lt_of_le_of_lt hstd (by rw [eps]; norm_num)
  rw [std_normalize, div_lt_iff₀ (std_add_eps_pos _)]
  linarith [std_nonneg [(0 : ℝ), 1 / 2 ^ 30], eps_pos]

/-- C2 (amended): the normalization step outputs
`(returns - mean) / (std + eps)` with `eps = 2⁻²³ ≈ 1.19e-7` (the float32
machine epsilon); for a non-degenerate returns sequence (length ≥ 2,
non-constant) the float pipeline produces a finite result, the output mean is
exactly `0`, and the output standard deviation equals `std / (std + eps)` —
within `eps / std` of `1`, hence approximately `1` only when the returns'
standard deviation dominates `eps` (not for near-constant sequences, see the
counterexample). -/
theorem returns_normalization_c2 (l : List ℝ) (h2 : 2 ≤ l.length)
    (hab : ∃ a ∈ l, ∃ b ∈ l, a ≠ b) :
    normalizeF l = some (normalize l) ∧
    normalize l = l.map (fun x => (x - mean l) / (std l + eps)) ∧
    0 < eps ∧ eps = 1 / 2 ^ 23 ∧
    mean (normalize l) = 0 ∧
    std (normalize l) = std l / (std l + eps) ∧
    0 ≤ 1 - std (normalize l) ∧
    1 - std (normalize l) ≤ eps / std l := by
  have hσ : 0 < std l := std_pos l h2 hab
  have hc : 0 < std l + eps := std_add_eps_pos l
  have heq : std (normalize l) = std l / (std l + eps) := std_normalize l
  refine ⟨normalizeF_eq l h2, rfl, eps_pos, rfl, mean_normalize l, heq, ?_, ?_⟩
  · rw [heq]
    have h1 : std l / (std l + eps) ≤ 1 := by
      rw [div_le_one hc]
      linarith [eps_pos]
    linarith
  · rw [heq]
    have h1 : 1 - std l / (std l + eps) = eps / (std l + eps) := by
      field_simp
    rw [h1]
    gcongr <;> linarith [eps_pos]

/-- Witness for C2 (amended) at the returns sequence `[0, 2]`. -/
theorem returns_normalization_c2_witness :
    normalizeF [(0 : ℝ), 2] = some (normalize [(0 : ℝ), 2]) ∧
    mean (normalize [(0 : ℝ), 2]) = 0 ∧
    std (normalize [(0 : ℝ), 2]) = std [(0 : ℝ), 2] / (std [(0 : ℝ), 2] + eps) := by
  have h := returns_normalization_c2 [(0 : ℝ), 2] (by norm_num)
    ⟨0, by simp, 2, by simp, by norm_num⟩
  exact ⟨h.1, h.2.2.2.2.1, h.2.2.2.2.2.1⟩

/-- C3 counterexample: for a single return, the normalization does not yield
`[0]`: `torch.Tensor.std` divides the (zero) squared deviation by
`n - 1 = 0`, so the standard deviation is NaN (`none` in the float model) and
the NaN propagates into the normalized output. -/
theorem degenerate_episode_c3_counterexample :
    normalizeF [(1 : ℝ)] ≠ some [0] := by
  rw [normalizeF_singleton]
  simp

/-- C3 (amended): for an episode of length 1, `finish_episode` raises no
error, but the normalized return is NaN rather than `0`: the unbiased sample
standard deviation of a singleton is `0 / 0`, a non-finite value (`none`)
that propagates through `(returns - mean) / (std + eps)`. -/
theorem degenerate_episode_c3 (g r : ℝ) :
    normalizeF (computeReturns g [r]) = none := by
  have h : computeReturns g [r] = [r + g * 0] := by
    simp [computeReturns]
  rw [h]
  exact normalizeF_singleton _

/-! ### Controller branch lemmas -/

lemma ctrlStep_awaiting {P α ρ : Type} (cfg : Config P α ρ) (s : CtrlState P α ρ)
    (h : s.mode = .AwaitingReset) :
    ctrlStep cfg s = { s with mode := .Running 0 } := by
  simp only [ctrlStep, h]

lemma ctrlStep_running_end {P α ρ : Type} (cfg : Config P α ρ) (s : CtrlState P α ρ)
    (t : ℕ) (a : α) (r : ρ) (d : Bool) (hm : s.mode = .Running t)
    (hi : cfg.interact s.params s.episode t = (a, r, d))
    (hc : d = true ∨ t + 1 = 10000) :
    ctrlStep cfg s = { s with mode := .EpisodeEnd, acts := s.acts ++ [a],
                              rews := s.rews ++ [r], lastT := t } := by
  simp only [ctrlStep, hm, hi]
  rw [if_pos hc]

lemma ctrlStep_running_cont {P α ρ : Type} (cfg : Config P α ρ) (s : CtrlState P α ρ)
    (t : ℕ) (a : α) (r : ρ) (d : Bool) (hm : s.mode = .Running t)
    (hi : cfg.interact s.params s.episode t = (a, r, d))
    (hc : ¬(d = true ∨ t + 1 = 10000)) :
    ctrlStep cfg s = { s with mode := .Running (t + 1), acts := s.acts ++ [a],
                              rews := s.rews ++ [r] } := by
  simp only [ctrlStep, hm, hi]
  rw [if_neg hc]

lemma ctrlStep_episodeEnd {P α ρ : Type} (cfg : Config P α ρ) (s : CtrlState P α ρ)
    (h : s.mode = .EpisodeEnd) :
    ctrlStep cfg s =
      { mode := if s.running_reward * (99 / 100) + (s.lastT : ℚ) * (1 / 100) >
            cfg.threshold then .Converged else .AwaitingReset,
        episode := s.episode + 1,
        params := cfg.update s.params s.acts s.rews,
        acts := [], rews := [],
        running_reward := s.running_reward * (99 / 100) + (s.lastT : ℚ) * (1 / 100),
        lastT := s.lastT } := by
  simp only [ctrlStep, h]

lemma ctrlStep_converged {P α ρ : Type} (cfg : Config P α ρ) (s : CtrlState P α ρ)
    (h : s.mode = .Converged) : ctrlStep cfg s = s := by
  simp only [ctrlStep, h]

/-- Parameters are untouched by every transition except the episode boundary
(the `optimizer.step()` inside `finish_episode`). -/
lemma params_ctrlStep {P α ρ : Type} (cfg : Config P α ρ) (s : CtrlState P α ρ)
    (h : s.mode ≠ .EpisodeEnd) : (ctrlStep cfg s).params = s.params := by
  cases hm : s.mode with
  | AwaitingReset => rw [ctrlStep_awaiting cfg s hm]
  | Running t =>
    rcases hi : cfg.interact s.params s.episode t with ⟨a, r, d⟩
    by_cases hc : d = true ∨ t + 1 = 10000
    · rw [ctrlStep_running_end cfg s t a r d hm hi hc]
    · rw [ctrlStep_running_cont cfg s t a r d hm hi hc]
  | EpisodeEnd => exact absurd hm h
  | Converged => rw [ctrlStep_converged cfg s hm]

/-- The running-reward signal is untouched by every transition except the
episode boundary. -/
lemma rr_ctrlStep {P α ρ : Type} (cfg : Config P α ρ) (s : CtrlState P α ρ)
    (h : s.mode ≠ .EpisodeEnd) : (ctrlStep cfg s).running_reward = s.running_reward := by
  cases hm : s.mode with
  | AwaitingReset => rw [ctrlStep_awaiting cfg s hm]
  | Running t =>
    rcases hi : cfg.interact s.params s.episode t with ⟨a, r, d⟩
    by_cases hc : d = true ∨ t + 1 = 10000
    · rw [ctrlStep_running_end cfg s t a r d hm hi hc]
    · rw [ctrlStep_running_cont cfg s t a r d hm hi hc]
  | EpisodeEnd => exact absurd hm h
  | Converged => rw [ctrlStep_converged cfg s hm]

lemma ctrlStep_end_params {P α ρ : Type} (cfg : Config P α ρ) (s : CtrlState P α ρ)
    (h : s.mode = .EpisodeEnd) :
    (ctrlStep cfg s).params = cfg.update s.params s.acts s.rews := by
  rw [ctrlStep_episodeEnd cfg s h]

lemma ctrlStep_end_rr {P α ρ : Type} (cfg : Config P α ρ) (s : CtrlState P α ρ)
    (h : s.mode = .EpisodeEnd) :
    (ctrlStep cfg s).running_reward =
      s.running_reward * (99 / 100) + (s.lastT : ℚ) * (1 / 100) := by
  rw [ctrlStep_episodeEnd cfg s h]

lemma ctrlStep_end_mode {P α ρ : Type} (cfg : Config P α ρ) (s : CtrlState P α ρ)
    (h : s.mode = .EpisodeEnd) :
    (ctrlStep cfg s).mode =
      if s.running_reward * (99 / 100) + (s.lastT : ℚ) * (1 / 100) > cfg.threshold
      then Mode.Converged else Mode.AwaitingReset := by
  rw [ctrlStep_episodeEnd cfg s h]

/-- One timestep of the inner loop when the episode stops here (environment
`done`, or `t` is the last index of `range(10000)`). -/
lemma run_phase_stop {P α ρ : Type} (cfg : Config P α ρ) (s : CtrlState P α ρ) (t : ℕ)
    (hm : s.mode = .Running t)
    (hstop : (cfg.interact s.params s.episode t).2.2 = true ∨ t + 1 = 10000) :
    ((ctrlStep cfg)^[1] s).mode = .EpisodeEnd ∧
    ((ctrlStep cfg)^[1] s).acts.length = s.acts.length + 1 ∧
    ((ctrlStep cfg)^[1] s).rews.length = s.rews.length + 1 ∧
    ((ctrlStep cfg)^[1] s).lastT = t ∧
    ((ctrlStep cfg)^[1] s).params = s.params ∧
    ((ctrlStep cfg)^[1] s).running_reward = s.running_reward := by
  rcases hi : cfg.interact s.params s.episode t with ⟨a, r, d⟩
  have hc : d = true ∨ t + 1 = 10000 := by rw [hi] at hstop; exact hstop
  simp only [Function.iterate_one]
  rw [ctrlStep_running_end cfg s t a r d hm hi hc]
  simp

/-- Running phase of one episode: from a `Running t` state with enough fuel
to cover the `range(10000)` cap, the controller performs some `m + 1` further
timesteps (staying in `Running` modes at `0, …, m`), then sits in
`EpisodeEnd`, having appended exactly one action and one reward per timestep,
recorded the last timestep index, and touched neither the parameters nor the
running reward. -/
lemma run_phase {P α ρ : Type} (cfg : Config P α ρ) :
    ∀ (fuel t : ℕ) (s : CtrlState P α ρ), s.mode = .Running t → t < 10000 →
      9999 ≤ t + fuel →
      ∃ m, m ≤ fuel ∧
        (∀ k, k ≤ m → ∃ u, ((ctrlStep cfg)^[k] s).mode = .Running u) ∧
        ((ctrlStep cfg)^[m + 1] s).mode = .EpisodeEnd ∧
        ((ctrlStep cfg)^[m + 1] s).acts.length = s.acts.length + m + 1 ∧
        ((ctrlStep cfg)^[m + 1] s).rews.length = s.rews.length + m + 1 ∧
        ((ctrlStep cfg)^[m + 1] s).lastT = t + m ∧
        (∀ k, k ≤ m + 1 → ((ctrlStep cfg)^[k] s).params = s.params) ∧
        (∀ k, k ≤ m + 1 → ((ctrlStep cfg)^[k] s).running_reward = s.running_reward) := by
  intro fuel
  induction fuel with
  | zero =>
    intro t s hm ht hge
    have hstop : (cfg.interact s.params s.episode t).2.2 = true ∨ t + 1 = 10000 :=
      Or.inr (by omega)
    obtain ⟨e1, e2, e3, e4, e5, e6⟩ := run_phase_stop cfg s t hm hstop
    refine ⟨0, le_refl 0, ?_, e1, by simpa using e2, by simpa using e3,
      by simpa using e4, ?_, ?_⟩
    · intro k hk
      have hk0 : k = 0 := by omega
      subst hk0
      exact ⟨t, hm⟩
    · intro k hk
      match k, hk with
      | 0, _ => rfl
      | 1, _ => exact e5
    · intro k hk
      match k, hk with
      | 0, _ => rfl
      | 1, _ => exact e6
  | succ fuel ih =>
    intro t s hm ht hge
    rcases hi : cfg.interact s.params s.episode t with ⟨a, r, d⟩
    by_cases hc : d = true ∨ t + 1 = 10000
    · have hstop : (cfg.interact s.params s.episode t).2.2 = true ∨ t + 1 = 10000 := by
        rw [hi]; exact hc
      obtain ⟨e1, e2, e3, e4, e5, e6⟩ := run_phase_stop cfg s t hm hstop
      refine ⟨0, by omega, ?_, e1, by simpa using e2, by simpa using e3,
        by simpa using e4, ?_, ?_⟩
      · intro k hk
        have hk0 : k = 0 := by omega
        subst hk0
        exact ⟨t, hm⟩
      · intro k hk
        match k, hk with
        | 0, _ => rfl
        | 1, _ => exact e5
      · intro k hk
        match k, hk with
        | 0, _ => rfl
        | 1, _ => exact e6
    · have hstep := ctrlStep_running_cont cfg s t a r d hm hi hc
      have hm1 : (ctrlStep cfg s).mode = .Running (t + 1) := by rw [hstep]
      have ht1 : t + 1 < 10000 := by
        push_neg at hc
        omega
      have hge1 : 9999 ≤ (t + 1) + fuel := by omega
      obtain ⟨m, hmle, hmode, hend, hacts, hrews, hlast, hparams, hrr⟩ :=
        ih (t + 1) (ctrlStep cfg s) hm1 ht1 hge1
      have hiter : ∀ k, (ctrlStep cfg)^[k + 1] s = (ctrlStep cfg)^[k] (ctrlStep cfg s) :=
        fun k => Function.iterate_succ_apply (ctrlStep cfg) k s
      have hacts1 : (ctrlStep cfg s).acts.length = s.acts.length + 1 := by
        rw [hstep]; simp
      have hrews1 : (ctrlStep cfg s).rews.length = s.rews.length + 1 := by
        rw [hstep]; simp
      have hparams1 : (ctrlStep cfg s).params = s.params := by rw [hstep]
      have hrr1 : (ctrlStep cfg s).running_reward = s.running_reward := by rw [hstep]
      refine ⟨m + 1, by omega, ?_, ?_, ?_, ?_, ?_, ?_, ?_⟩
      · intro k hk
        cases k with
        | zero => exact ⟨t, hm⟩
        | succ k =>
          rw [hiter k]
          exact hmode k (by omega)
      · rw [hiter (m + 1)]
        exact hend
      · rw [hiter (m + 1), hacts]
        omega
      · rw [hiter (m + 1), hrews]
        omega
      · rw [hiter (m + 1), hlast]
        omega
      · intro k hk
        cases k with
        | zero => rfl
        | succ k =>
          rw [hiter k, hparams k (by omega), hparams1]
      · intro k hk
        cases k with
        | zero => rfl
        | succ k =>
          rw [hiter k, hrr k (by omega), hrr1]

/-- One full episode, starting at an `AwaitingReset` state: one reset step,
then `m + 1` timesteps, then `EpisodeEnd` at index `m + 2` with
`m + 1` buffered actions and rewards, `lastT = m`, parameters and running
reward untouched so far. -/
lemma episode_from_reset {P α ρ : Type} (cfg : Config P α ρ) (s : CtrlState P α ρ)
    (h : s.mode = .AwaitingReset) :
    ∃ m, m ≤ 9999 ∧
      (∀ k, 1 ≤ k → k ≤ m + 1 → ∃ u, ((ctrlStep cfg)^[k] s).mode = .Running u) ∧
      ((ctrlStep cfg)^[m + 2] s).mode = .EpisodeEnd ∧
      ((ctrlStep cfg)^[m + 2] s).acts.length = s.acts.length + m + 1 ∧
      ((ctrlStep cfg)^[m + 2] s).rews.length = s.rews.length + m + 1 ∧
      ((ctrlStep cfg)^[m + 2] s).lastT = m ∧
      (∀ k, k ≤ m + 2 → ((ctrlStep cfg)^[k] s).params = s.params) ∧
      (∀ k, k ≤ m + 2 → ((ctrlStep cfg)^[k] s).running_reward = s.running_reward) := by
  have hstep := ctrlStep_awaiting cfg s h
  have hm1 : (ctrlStep cfg s).mode = .Running 0 := by rw [hstep]
  obtain ⟨m, hmle, hmode, hend, hacts, hrews, hlast, hparams, hrr⟩ :=
    run_phase cfg 9999 0 (ctrlStep cfg s) hm1 (by norm_num) (by norm_num)
  have hiter : ∀ k, (ctrlStep cfg)^[k + 1] s = (ctrlStep cfg)^[k] (ctrlStep cfg s) :=
    fun k => Function.iterate_succ_apply (ctrlStep cfg) k s
  have hacts1 : (ctrlStep cfg s).acts = s.acts := by rw [hstep]
  have hrews1 : (ctrlStep cfg s).rews = s.rews := by rw [hstep]
  have hparams1 : (ctrlStep cfg s).params = s.params := by rw [hstep]
  have hrr1 : (ctrlStep cfg s).running_reward = s.running_reward := by rw [hstep]
  refine ⟨m, hmle, ?_, ?_, ?_, ?_, ?_, ?_, ?_⟩
  · intro k hk1 hk2
    obtain ⟨k, rfl⟩ : ∃ j, k = j + 1 := ⟨k - 1, by omega⟩
    rw [hiter k]
    exact hmode k (by omega)
  · rw [hiter (m + 1)]
    exact hend
  · rw [hiter (m + 1), hacts, hacts1]
  · rw [hiter (m + 1), hrews, hrews1]
  · rw [hiter (m + 1), hlast]
    omega
  · intro k hk
    cases k with
    | zero => rfl
    | succ k =>
      rw [hiter k, hparams k (by omega), hparams1]
  · intro k hk
    cases k with
    | zero => rfl
    | succ k =>
      rw [hiter k, hrr k (by omega), hrr1]

/-! ### Buffer parity (C4) -/

lemma parity_ctrlStep {P α ρ : Type} (cfg : Config P α ρ) (s : CtrlState P α ρ)
    (h : s.acts.length = s.rews.length) :
    (ctrlStep cfg s).acts.length = (ctrlStep cfg s).rews.length := by
  cases hm : s.mode with
  | AwaitingReset => rw [ctrlStep_awaiting cfg s hm]; exact h
  | Running t =>
    rcases hi : cfg.interact s.params s.episode t with ⟨a, r, d⟩
    by_cases hc : d = true ∨ t + 1 = 10000
    · rw [ctrlStep_running_end cfg s t a r d hm hi hc]
      simp [h]
    · rw [ctrlStep_running_cont cfg s t a r d hm hi hc]
      simp [h]
  | EpisodeEnd => rw [ctrlStep_episodeEnd cfg s hm]; rfl
  | Converged => rw [ctrlStep_converged cfg s hm]; exact h

/-- C4: each simulated timestep appends exactly one action record
(`select_action`) and exactly one reward (the controller loop), and from any
state with equally long buffers every number of controller steps — in
particular the drain point at episode end — leaves the two buffers with equal
lengths. -/
theorem buffer_parity_c4 {P α ρ : Type} (cfg : Config P α ρ) :
    (∀ (s : CtrlState P α ρ) (t : ℕ), s.mode = .Running t →
      (ctrlStep cfg s).acts.length = s.acts.length + 1 ∧
      (ctrlStep cfg s).rews.length = s.rews.length + 1) ∧
    (∀ (s : CtrlState P α ρ) (n : ℕ), s.acts.length = s.rews.length →
      ((ctrlStep cfg)^[n] s).acts.length = ((ctrlStep cfg)^[n] s).rews.length) := by
  constructor
  · intro s t hm
    rcases hi : cfg.interact s.params s.episode t with ⟨a, r, d⟩
    by_cases hc : d = true ∨ t + 1 = 10000
    · rw [ctrlStep_running_end cfg s t a r d hm hi hc]
      simp
    · rw [ctrlStep_running_cont cfg s t a r d hm hi hc]
      simp
  · intro s n h
    induction n with
    | zero => exact h
    | succ n ihn =>
      rw [Function.iterate_succ_apply']
      exact parity_ctrlStep cfg _ ihn

/-- Witness for C4: four controller steps from the initial state (one full
episode of the trivial environment plus the next reset) keep the buffers at
equal length. -/
theorem buffer_parity_c4_witness :
    init0.acts.length = init0.rews.length ∧
    ((ctrlStep cfg0)^[4] init0).acts.length = ((ctrlStep cfg0)^[4] init0).rews.length :=
  ⟨rfl, (buffer_parity_c4 cfg0).2 init0 4 rfl⟩

/-! ### Single parameter update per episode (C5) -/

/-- C5: between two consecutive episode starts the policy parameters change
at most once.  From any `AwaitingReset` state the controller reaches the next
`AwaitingReset`-or-`Converged` state after `n` steps with no such state in
between, exactly one intermediate `EpisodeEnd` state (at index `j = n - 1`),
the parameter mutation happening only at that step — as the single batch
update `Config.update` applied to the complete episode buffers — and every
other step preserving the parameters (never per-timestep). -/
theorem single_update_c5 {P α ρ : Type} (cfg : Config P α ρ) (s : CtrlState P α ρ)
    (h : s.mode = .AwaitingReset) :
    ∃ n j, 0 < n ∧ j < n ∧
      (((ctrlStep cfg)^[n] s).mode = .AwaitingReset ∨
        ((ctrlStep cfg)^[n] s).mode = .Converged) ∧
      (∀ k, 0 < k → k < n → ((ctrlStep cfg)^[k] s).mode ≠ .AwaitingReset ∧
        ((ctrlStep cfg)^[k] s).mode ≠ .Converged) ∧
      ((ctrlStep cfg)^[j] s).mode = .EpisodeEnd ∧
      ((ctrlStep cfg)^[j + 1] s).params =
        cfg.update (((ctrlStep cfg)^[j] s).params) (((ctrlStep cfg)^[j] s).acts)
          (((ctrlStep cfg)^[j] s).rews) ∧
      (∀ k, k < n → k ≠ j →
        ((ctrlStep cfg)^[k + 1] s).params = ((ctrlStep cfg)^[k] s).params) := by
  obtain ⟨m, hm9, hrun, hend, hacts, hrews, hlast, hparams, hrr⟩ :=
    episode_from_reset cfg s h
  refine ⟨m + 3, m + 2, by omega, by omega, ?_, ?_, hend, ?_, ?_⟩
  · have hst : (ctrlStep cfg)^[m + 3] s = ctrlStep cfg ((ctrlStep cfg)^[m + 2] s) :=
      Function.iterate_succ_apply' (ctrlStep cfg) (m + 2) s
    rw [hst, ctrlStep_end_mode cfg _ hend]
    split_ifs with hcond
    · exact Or.inr rfl
    · exact Or.inl rfl
  · intro k hk0 hkn
    rcases Nat.lt_or_ge k (m + 2) with hlt | hge
    · obtain ⟨u, hu⟩ := hrun k (by omega) (by omega)
      refine ⟨?_, ?_⟩ <;> rw [hu] <;> simp
    · have hk2 : k = m + 2 := by omega
      subst hk2
      refine ⟨?_, ?_⟩ <;> rw [hend] <;> simp
  · have hst : (ctrlStep cfg)^[m + 2 + 1] s = ctrlStep cfg ((ctrlStep cfg)^[m + 2] s) :=
      Function.iterate_succ_apply' (ctrlStep cfg) (m + 2) s
    rw [hst]
    exact ctrlStep_end_params cfg _ hend
  · intro k hkn hkj
    have e1 := hparams (k + 1) (by omega)
    have e0 := hparams k (by omega)
    rw [e1, e0]

/-- Witness for C5 at the concrete configuration `cfg0` and initial state. -/
theorem single_update_c5_witness :
    ∃ n j, 0 < n ∧ j < n ∧
      (((ctrlStep cfg0)^[n] init0).mode = .AwaitingReset ∨
        ((ctrlStep cfg0)^[n] init0).mode = .Converged) ∧
      (∀ k, 0 < k → k < n → ((ctrlStep cfg0)^[k] init0).mode ≠ .AwaitingReset ∧
        ((ctrlStep cfg0)^[k] init0).mode ≠ .Converged) ∧
      ((ctrlStep cfg0)^[j] init0).mode = .EpisodeEnd ∧
      ((ctrlStep cfg0)^[j + 1] init0).params =
        cfg0.update (((ctrlStep cfg0)^[j] init0).params)
          (((ctrlStep cfg0)^[j] init0).acts) (((ctrlStep cfg0)^[j] init0).rews) ∧
      (∀ k, k < n → k ≠ j →
        ((ctrlStep cfg0)^[k + 1] init0).params = ((ctrlStep cfg0)^[k] init0).params) :=
  single_update_c5 cfg0 init0 rfl

/-! ### Running-reward update (C6) -/

/-- C6 counterexample: in the source the update is
`running_reward = running_reward * 0.99 + t * 0.01` where `t` is the final
loop index, not the episode length.  For a first episode of length 1
(`done` at `t = 0`) the code produces `10 * 0.99 + 0 * 0.01 = 9.9`, whereas
the claimed formula `signal * decay + episode_length * (1 - decay)` gives
`10 * 0.99 + 1 * 0.01 = 9.91`. -/
theorem running_reward_c6_counterexample :
    ((ctrlStep cfg0)^[2] init0).mode = .EpisodeEnd ∧
    ((ctrlStep cfg0)^[2] init0).rews.length = 1 ∧
    ((ctrlStep cfg0)^[3] init0).running_reward = 10 * (99 / 100) + (0 : ℚ) * (1 / 100) ∧
    (10 * (99 / 100) + (0 : ℚ) * (1 / 100) : ℚ) ≠ 10 * (99 / 100) + (1 : ℚ) * (1 / 100) := by
  refine ⟨rfl, rfl, ?_, by norm_num⟩
  show (10 : ℚ) * (99 / 100) + ((0 : ℕ) : ℚ) * (1 / 100) =
    10 * (99 / 100) + (0 : ℚ) * (1 / 100)
  norm_num

/-- C6 (amended): starting from the configured initial value 10, the
controller updates the running reward exactly once per episode — only the
episode-boundary step changes it — by
`signal = signal * 0.99 + t * 0.01` where `t` is the final timestep index
`lastT`, equal to the episode length minus one (the number of buffered
rewards minus one), not the episode length itself. -/
theorem running_reward_c6 {P α ρ : Type} (cfg : Config P α ρ) (p0 : P) :
    (initState p0 : CtrlState P α ρ).running_reward = 10 ∧
    (∀ s : CtrlState P α ρ, s.mode = .EpisodeEnd →
      (ctrlStep cfg s).running_reward =
        s.running_reward * (99 / 100) + (s.lastT : ℚ) * (1 / 100)) ∧
    (∀ s : CtrlState P α ρ, s.mode ≠ .EpisodeEnd →
      (ctrlStep cfg s).running_reward = s.running_reward) ∧
    (∀ s : CtrlState P α ρ, s.mode = .AwaitingReset → s.rews = [] →
      ∃ j, ((ctrlStep cfg)^[j] s).mode = .EpisodeEnd ∧
        ((ctrlStep cfg)^[j] s).lastT + 1 = ((ctrlStep cfg)^[j] s).rews.length) := by
  refine ⟨rfl, fun s hs => ctrlStep_end_rr cfg s hs,
    fun s hs => rr_ctrlStep cfg s hs, ?_⟩
  intro s hs hrews
  obtain ⟨m, _, _, hend, _, hrews2, hlast, _, _⟩ := episode_from_reset cfg s hs
  refine ⟨m + 2, hend, ?_⟩
  rw [hlast, hrews2, hrews]
  simp

/-- Witness for C6 (amended) at the concrete configuration `cfg0`. -/
theorem running_reward_c6_witness :
    (initState () : CtrlState Unit Unit Unit).running_reward = 10 ∧
    (∃ j, ((ctrlStep cfg0)^[j] init0).mode = .EpisodeEnd ∧
      ((ctrlStep cfg0)^[j] init0).lastT + 1 = ((ctrlStep cfg0)^[j] init0).rews.length) := by
  have h := running_reward_c6 cfg0 ()
  exact ⟨h.1, h.2.2.2 init0 rfl rfl⟩

/-! ### Stopping criterion (C7) -/

/-- C7: `Converged` is terminal, and a non-`Converged` state transitions to
`Converged` if and only if it is an episode boundary (`EpisodeEnd`) whose
freshly updated running reward strictly exceeds the environment's
`reward_threshold`; in particular no mid-episode (`Running`) state and no
reset state ever converges. -/
theorem stop_condition_c7 {P α ρ : Type} (cfg : Config P α ρ) (s : CtrlState P α ρ) :
    (s.mode = .Converged → ctrlStep cfg s = s) ∧
    (s.mode ≠ .Converged →
      ((ctrlStep cfg s).mode = .Converged ↔
        s.mode = .EpisodeEnd ∧
          cfg.threshold < s.running_reward * (99 / 100) + (s.lastT : ℚ) * (1 / 100))) := by
  constructor
  · exact fun h => ctrlStep_converged cfg s h
  · intro hne
    cases hm : s.mode with
    | AwaitingReset =>
      rw [ctrlStep_awaiting cfg s hm]
      simp [hm]
    | Running t =>
      rcases hi : cfg.interact s.params s.episode t with ⟨a, r, d⟩
      by_cases hc : d = true ∨ t + 1 = 10000
      · rw [ctrlStep_running_end cfg s t a r d hm hi hc]
        simp [hm]
      · rw [ctrlStep_running_cont cfg s t a r d hm hi hc]
        simp [hm]
    | EpisodeEnd =>
      rw [ctrlStep_end_mode cfg s hm]
      split_ifs with hcond
      · exact iff_of_true rfl ⟨rfl, hcond⟩
      · exact iff_of_false (by simp) fun hand => hcond hand.2
    | Converged => exact absurd hm hne

/-- Witness for C7 at the concrete initial state (not converged, does not
transition to `Converged`). -/
theorem stop_condition_c7_witness :
    (ctrlStep cfg0 init0).mode = .Converged ↔
      init0.mode = .EpisodeEnd ∧
        cfg0.threshold < init0.running_reward * (99 / 100) + (init0.lastT : ℚ) * (1 / 100) :=
  (stop_condition_c7 cfg0 init0).2 (by decide)

/-! ### Non-empty reward buffer at episode end (C10) -/

/-- C10 (implicit claim): at every invocation of the episode-end processing
the reward buffer is non-empty.  First conjunct, universal over every drain:
the only transition that enters `EpisodeEnd` is a `Running` timestep, which
appends its reward before the termination check (as in the source, where the
reward is appended before `if done: break` and `range(10000)` is non-empty),
so every state entering `EpisodeEnd` — i.e. every state at which
`finish_episode` then runs — has at least one buffered reward.  Second
conjunct: from each episode start, the first `EpisodeEnd` reached (no earlier
step is an `EpisodeEnd`, pinning it to this episode's own drain) holds
exactly `lastT + 1 ≥ 1` rewards, so the normalization statistics are taken
over a non-empty sequence. -/
theorem nonempty_buffer_c10 {P α ρ : Type} (cfg : Config P α ρ) :
    (∀ s : CtrlState P α ρ, (ctrlStep cfg s).mode = .EpisodeEnd →
      1 ≤ (ctrlStep cfg s).rews.length) ∧
    (∀ s : CtrlState P α ρ, s.mode = .AwaitingReset → s.rews = [] →
      ∃ j, ((ctrlStep cfg)^[j] s).mode = .EpisodeEnd ∧
        (∀ k, k < j → ((ctrlStep cfg)^[k] s).mode ≠ .EpisodeEnd) ∧
        1 ≤ ((ctrlStep cfg)^[j] s).rews.length ∧
        ((ctrlStep cfg)^[j] s).rews.length = ((ctrlStep cfg)^[j] s).lastT + 1) := by
  constructor
  · intro s hmode
    cases hm : s.mode with
    | AwaitingReset =>
      rw [ctrlStep_awaiting cfg s hm] at hmode
      exact absurd hmode (by simp)
    | Running t =>
      rcases hi : cfg.interact s.params s.episode t with ⟨a, r, d⟩
      by_cases hc : d = true ∨ t + 1 = 10000
      · rw [ctrlStep_running_end cfg s t a r d hm hi hc]
        simp
      · rw [ctrlStep_running_cont cfg s t a r d hm hi hc] at hmode
        exact absurd hmode (by simp)
    | EpisodeEnd =>
      rw [ctrlStep_end_mode cfg s hm] at hmode
      split_ifs at hmode
    | Converged =>
      rw [ctrlStep_converged cfg s hm] at hmode
      exact absurd (hm ▸ hmode) (by simp)
  · intro s h hr
    obtain ⟨m, _, hrun, hend, _, hrews2, hlast, _, _⟩ := episode_from_reset cfg s h
    have h1 : ((ctrlStep cfg)^[m + 2] s).rews.length = m + 1 := by
      rw [hrews2, hr]
      simp
    refine ⟨m + 2, hend, ?_, by omega, by rw [h1, hlast]⟩
    intro k hk
    cases k with
    | zero =>
      rw [Function.iterate_zero_apply, h]
      simp
    | succ k =>
      obtain ⟨u, hu⟩ := hrun (k + 1) (by omega) (by omega)
      rw [hu]
      simp

/-- Witness for C10 at the concrete configuration `cfg0`: the step out of the
first `Running` state drains with one buffered reward, and the first episode's
own drain point holds `lastT + 1` rewards. -/
theorem nonempty_buffer_c10_witness :
    1 ≤ (ctrlStep cfg0 (ctrlStep cfg0 init0)).rews.length ∧
    (∃ j, ((ctrlStep cfg0)^[j] init0).mode = .EpisodeEnd ∧
      (∀ k, k < j → ((ctrlStep cfg0)^[k] init0).mode ≠ .EpisodeEnd) ∧
      1 ≤ ((ctrlStep cfg0)^[j] init0).rews.length ∧
      ((ctrlStep cfg0)^[j] init0).rews.length = ((ctrlStep cfg0)^[j] init0).lastT + 1) :=
  ⟨(nonempty_buffer_c10 cfg0).1 (ctrlStep cfg0 init0) rfl,
    (nonempty_buffer_c10 cfg0).2 init0 rfl rfl⟩

/-! ### Determinism of the training loop (C9) -/

/-- Functionality: every transition of the loop relation lands exactly on the
`ctrlStep` successor. -/
lemma ctrlRel_eq_ctrlStep {P α ρ : Type} (cfg : Config P α ρ)
    (s s' : CtrlState P α ρ) (h : CtrlRel cfg s s') : s' = ctrlStep cfg s := by
  cases h with
  | reset h => rw [ctrlStep_awaiting cfg s h]
  | timestep t a r d hm hi hc => rw [ctrlStep_running_cont cfg s t a r d hm hi hc]
  | timestepEnd t a r d hm hi hc => rw [ctrlStep_running_end cfg s t a r d hm hi hc]
  | boundary h => rw [ctrlStep_episodeEnd cfg s h]
  | halted h => rw [ctrlStep_converged cfg s h]

/-- Totality: `ctrlStep` realizes the loop relation at every state. -/
lemma ctrlRel_total {P α ρ : Type} (cfg : Config P α ρ) (s : CtrlState P α ρ) :
    CtrlRel cfg s (ctrlStep cfg s) := by
  cases hm : s.mode with
  | AwaitingReset =>
    rw [ctrlStep_awaiting cfg s hm]
    exact CtrlRel.reset s hm
  | Running t =>
    rcases hi : cfg.interact s.params s.episode t with ⟨a, r, d⟩
    by_cases hc : d = true ∨ t + 1 = 10000
    · rw [ctrlStep_running_end cfg s t a r d hm hi hc]
      exact CtrlRel.timestepEnd s t a r d hm hi hc
    · rw [ctrlStep_running_cont cfg s t a r d hm hi hc]
      exact CtrlRel.timestep s t a r d hm hi hc
  | EpisodeEnd =>
    rw [ctrlStep_episodeEnd cfg s hm]
    exact CtrlRel.boundary s hm
  | Converged =>
    rw [ctrlStep_converged cfg s hm]
    exact CtrlRel.halted s hm

/-- C9: the training loop is deterministic.  Two runs under the same
configuration (same seeded environment/policy oracle, same update rule, same
threshold) that start in the same state — same initial parameters — agree at
every step: in particular the recorded action sequences and the parameter
trajectories coincide. -/
theorem reproducibility_c9 {P α ρ : Type} (cfg : Config P α ρ)
    (tr1 tr2 : ℕ → CtrlState P α ρ)
    (h1 : ∀ n, CtrlRel cfg (tr1 n) (tr1 (n + 1)))
    (h2 : ∀ n, CtrlRel cfg (tr2 n) (tr2 (n + 1)))
    (h0 : tr1 0 = tr2 0) :
    ∀ n, tr1 n = tr2 n ∧ (tr1 n).acts = (tr2 n).acts ∧
      (tr1 n).params = (tr2 n).params := by
  have key : ∀ n, tr1 n = tr2 n := by
    intro n
    induction n with
    | zero => exact h0
    | succ n ihn =>
      rw [ctrlRel_eq_ctrlStep cfg _ _ (h1 n), ctrlRel_eq_ctrlStep cfg _ _ (h2 n), ihn]
  exact fun n => ⟨key n, by rw [key n], by rw [key n]⟩

/-- Witness for C9: the iterate trace of the concrete configuration compared
against itself at step 3. -/
theorem reproducibility_c9_witness :
    (ctrlStep cfg0)^[3] init0 = (ctrlStep cfg0)^[3] init0 ∧
    ((ctrlStep cfg0)^[3] init0).acts = ((ctrlStep cfg0)^[3] init0).acts ∧
    ((ctrlStep cfg0)^[3] init0).params = ((ctrlStep cfg0)^[3] init0).params := by
  have htr : ∀ n, CtrlRel cfg0 ((ctrlStep cfg0)^[n] init0)
      ((ctrlStep cfg0)^[n + 1] init0) := by
    intro n
    rw [Function.iterate_succ_apply']
    exact ctrlRel_total cfg0 _
  exact reproducibility_c9 cfg0 (fun n => (ctrlStep cfg0)^[n] init0)
    (fun n => (ctrlStep cfg0)^[n] init0) htr htr rfl 3

/-! ### Action sampler (C8) -/

lemma pickIndex_lt : ∀ (qs : List ℚ) (t : ℚ), 0 ≤ t → t < qs.sum →
    pickIndex qs t < qs.length := by
  intro qs
  induction qs with
  | nil =>
    intro t h0 ht
    rw [List.sum_nil] at ht
    linarith
  | cons p rest ih =>
    intro t h0 ht
    rw [pickIndex]
    by_cases hc : t < p
    · rw [if_pos hc]
      simp
    · rw [if_neg hc]
      have hp : p ≤ t := not_lt.mp hc
      rw [List.sum_cons] at ht
      have := ih (t - p) (by linarith) (by linarith)
      simpa using Nat.succ_lt_succ this

lemma pickIndex_take : ∀ (qs : List ℚ) (t : ℚ), 0 ≤ t → t < qs.sum →
    (qs.take (pickIndex qs t)).sum ≤ t ∧ t < (qs.take (pickIndex qs t + 1)).sum := by
  intro qs
  induction qs with
  | nil =>
    intro t h0 ht
    rw [List.sum_nil] at ht
    linarith
  | cons p rest ih =>
    intro t h0 ht
    by_cases hc : t < p
    · constructor
      · simpa [pickIndex, hc] using h0
      · simpa [pickIndex, hc] using hc
    · have hp : p ≤ t := not_lt.mp hc
      rw [List.sum_cons] at ht
      have hrest := ih (t - p) (by linarith) (by linarith)
      constructor
      · simp only [pickIndex, if_neg hc, List.take_succ_cons, List.sum_cons]
        linarith [hrest.1]
      · simp only [pickIndex, if_neg hc, List.take_succ_cons, List.sum_cons]
        linarith [hrest.2]

/-- C8: the action sampler fails with a `DistributionError` exactly when the
probabilities are non-finite or do not sum to a positive value; every valid
distribution, sampled at a uniform draw `u ∈ [0, 1)`, yields one action
index inside the distribution's support range, chosen by the inverse CDF
(the target `u * total` falls in the chosen index's cumulative-weight slot),
with the chosen entry's probability weight recorded as the differentiable
context for the later gradient step. -/
theorem action_sampler_c8 (ps : List Fl) (u : ℚ) :
    (sampleAction ps u = .error .invalidDistribution ↔
      ¬(ps.all Fl.isFinite = true ∧ 0 < totalWeight ps)) ∧
    (ps.all Fl.isFinite = true → 0 < totalWeight ps → 0 ≤ u → u < 1 →
      ∃ i, sampleAction ps u = .ok ⟨i, (ps.map Fl.val).getD i 0⟩ ∧
        i < ps.length ∧
        ((ps.map Fl.val).take i).sum ≤ u * totalWeight ps ∧
        u * totalWeight ps < ((ps.map Fl.val).take (i + 1)).sum) := by
  constructor
  · by_cases hv : ps.all Fl.isFinite = true ∧ 0 < totalWeight ps
    · rw [sampleAction, if_pos hv]
      exact iff_of_false (by simp) (not_not_intro hv)
    · rw [sampleAction, if_neg hv]
      exact iff_of_true rfl hv
  · intro hfin hpos hu0 hu1
    have hv : ps.all Fl.isFinite = true ∧ 0 < totalWeight ps := ⟨hfin, hpos⟩
    have ht0 : 0 ≤ u * totalWeight ps := mul_nonneg hu0 hpos.le
    have htlt : u * totalWeight ps < (ps.map Fl.val).sum := by
      have h1 : u * totalWeight ps < 1 * totalWeight ps :=
        mul_lt_mul_of_pos_right hu1 hpos
      rw [one_mul] at h1
      exact h1
    refine ⟨pickIndex (ps.map Fl.val) (u * totalWeight ps), ?_, ?_, ?_, ?_⟩
    · rw [sampleAction, if_pos hv]
    · have h := pickIndex_lt (ps.map Fl.val) (u * totalWeight ps) ht0 htlt
      simpa using h
    · exact (pickIndex_take (ps.map Fl.val) (u * totalWeight ps) ht0 htlt).1
    · exact (pickIndex_take (ps.map Fl.val) (u * totalWeight ps) ht0 htlt).2

/-- Witness for C8 at the uniform two-action distribution and `u = 1/4`. -/
theorem action_sampler_c8_witness :
    (sampleAction [Fl.fin (1/2), Fl.fin (1/2)] (1/4) = .error .invalidDistribution ↔
      ¬(([Fl.fin (1/2), Fl.fin (1/2)] : List Fl).all Fl.isFinite = true ∧
        0 < totalWeight [Fl.fin (1/2), Fl.fin (1/2)])) ∧
    (∃ i, sampleAction [Fl.fin (1/2), Fl.fin (1/2)] (1/4) =
        .ok ⟨i, (([Fl.fin (1/2), Fl.fin (1/2)] : List Fl).map Fl.val).getD i 0⟩ ∧
      i < ([Fl.fin (1/2), Fl.fin (1/2)] : List Fl).length ∧
      ((([Fl.fin (1/2), Fl.fin (1/2)] : List Fl).map Fl.val).take i).sum ≤
        (1/4 : ℚ) * totalWeight [Fl.fin (1/2), Fl.fin (1/2)] ∧
      (1/4 : ℚ) * totalWeight [Fl.fin (1/2), Fl.fin (1/2)] <
        ((([Fl.fin (1/2), Fl.fin (1/2)] : List Fl).map Fl.val).take (i + 1)).sum) := by
  have h := action_sampler_c8 [Fl.fin (1/2), Fl.fin (1/2)] (1/4)
  refine ⟨h.1, h.2 rfl ?_ ?_ ?_⟩
  · show (0 : ℚ) < totalWeight [Fl.fin (1/2), Fl.fin (1/2)]
    norm_num [totalWeight, Fl.val]
  · norm_num
  · norm_num

end PolicyGradient
